import Mathlib

/-!
Shallow embedding of the module-graph builder and tree shaker of
`packages/bundler/src/lib.rs` (OneDot-JS).

Modelling conventions:
* Rust `String` is Lean `String`; paths are strings (valid UTF-8, Unix
  separators), matching `Path::to_string_lossy` / `Path::to_str` which are
  the identity on such strings.
* `HashMap<String, ModuleInfo>` is a list of key/value pairs looked up by
  first match; `HashSet<String>` is a list queried by membership, inserted
  into with `insertNew` (insert-if-absent, like `HashSet::insert`).
* Fallible code (`anyhow::Result`) is `Except String`.
* Recursive code whose termination is not structural is given explicit
  fuel and returns `Option` (`none` = the fuel ran out, i.e. the source
  recursion has not returned at that depth; for `walkFuel` it also covers
  the `.unwrap()` panic on a parentless path).
* The `swc` syntax front-end is external to the analyzed core (the spec
  treats it as a collaborator); it is abstracted as a function
  `String → Option Program` producing the declaration/usage stream the
  visitors consume (`none` = syntax error).

All definitions are executable and structurally recursive so that concrete
runs can be settled by `decide`.
-/

/-- One module's extracted facts, mirroring `struct ModuleInfo` of
`lib.rs`: id, import specifiers in source order, exported names,
referenced identifier names. -/
structure ModuleInfo where
  id : String
  imports : List String
  exports : List String
  used_symbols : List String
deriving DecidableEq, Repr

/-- Mirrors `struct Graph { modules: HashMap<String, ModuleInfo> }`. -/
structure Graph where
  modules : List (String × ModuleInfo)
deriving DecidableEq, Repr

deriving instance DecidableEq for Except

/-- First-match association lookup, modelling `HashMap::get`. -/
def lookupStr {α : Type} : List (String × α) → String → Option α
  | [], _ => none
  | (k, v) :: rest, q => if k = q then some v else lookupStr rest q

/-- Models `graph.modules.get(id)`. -/
def Graph.get (g : Graph) (k : String) : Option ModuleInfo :=
  lookupStr g.modules k

/-- The key set of the module map. -/
def Graph.keys (g : Graph) : List String :=
  g.modules.map Prod.fst

/-- Models `HashSet::insert`: add the element unless already present. -/
def insertNew (l : List String) (x : String) : List String :=
  if x ∈ l then l else l ++ [x]

/-! ## Rust `std::path` model (Unix, valid UTF-8)

`build_graph` and `normalize_path` use `Path::parent` and `Path::join`.
`join`/`push` concatenates without any normalization (unless the argument
is absolute). `parent` drops the final component as computed by
`Components`, which normalizes non-leading `.` segments away and trims
trailing separators, so e.g. the parent of `d/./b.ts` is `d` while the
parent of `d/a.ts` is also `d`, and the parent of `a.ts` is the empty
path. -/

/-- Does the path string start with the separator (Unix `has_root`)? -/
def hasRoot (s : String) : Bool :=
  match s.data with
  | '/' :: _ => true
  | _ => false

/-- Split a character list on `/`, accumulating the current (reversed)
segment. -/
def splitSegsAux : List Char → List Char → List (List Char)
  | cur, [] => [cur.reverse]
  | cur, '/' :: rest => cur.reverse :: splitSegsAux [] rest
  | cur, c :: rest => splitSegsAux (c :: cur) rest

/-- The non-empty `/`-separated segments of a path string. -/
def bodySegs (s : String) : List String :=
  ((splitSegsAux [] s.data).filter (fun seg => seg ≠ [])).map String.mk

/-- Does the path begin with a `.` component (`./…` or exactly `.`), with
no root? Mirrors `Components::include_cur_dir`. -/
def includeCurDir (s : String) : Bool :=
  match s.data with
  | '.' :: [] => true
  | '.' :: '/' :: _ => true
  | _ => false

/-- The normalized component list of a path (root excluded): a leading
`.` survives only at the start of a rootless path; other `.` segments and
empty segments are dropped. Mirrors Rust `Path::components`. -/
def pathComps (s : String) : List String :=
  (if includeCurDir s then ["."] else []) ++
    (bodySegs s).filter (fun seg => seg ≠ ".")

/-- Render a root flag and component list back to a path string, as
`Components::as_path` does after trimming. -/
def joinSegs : List String → String
  | [] => ""
  | [x] => x
  | x :: rest => x ++ "/" ++ joinSegs rest

/-- Render with optional root. -/
def renderPath (root : Bool) (cs : List String) : String :=
  (if root then "/" else "") ++ joinSegs cs

/-- Rust `Path::parent`: `none` for the empty path and for the bare root,
otherwise the path without its final component (with non-significant
trailing `.`/separators trimmed). -/
def pathParent (s : String) : Option String :=
  match pathComps s with
  | [] => none
  | cs@(_ :: _) => some (renderPath (hasRoot s) (cs.dropLast))

/-- Does the string end in `/`? -/
def endsWithSep (s : String) : Bool :=
  match s.data.reverse with
  | '/' :: _ => true
  | _ => false

/-- Rust `Path::join` / `PathBuf::push` on Unix: an absolute right-hand
side replaces the base; otherwise the two are concatenated with a single
separator, with no normalization of `.` segments. -/
def pjoin (base rel : String) : String :=
  if hasRoot rel then rel
  else if base = "" then rel
  else if endsWithSep base then base ++ rel
  else base ++ "/" ++ rel

/-- POSIX resolution of `.` segments, used only to model the on-disk
filesystem in concrete scenarios: path strings differing only by `.`
segments name the same file. -/
def canon (s : String) : String :=
  renderPath (hasRoot s) ((bodySegs s).filter (fun seg => seg ≠ "."))

/-- Does the specifier start with `.` (Rust `imp.starts_with('.')`)? -/
def startsWithDot (s : String) : Bool :=
  match s.data with
  | '.' :: _ => true
  | _ => false

/-- Mirrors `fn normalize_path(base, rel)` of `lib.rs`:
`Path::new(base).parent().unwrap_or(Path::new(".")).join(rel)`. -/
def normalize_path (base rel : String) : String :=
  pjoin ((pathParent base).getD ".") rel

/-! ## Syntax front-end abstraction

The visitors of `lib.rs` consume the `swc` AST. The core only inspects
the import declarations (their specifier strings), export declarations
(variable / function / class, plus named-export lists with their original
names), and every identifier token for the usage set. A `Program` is that
stream. -/

/-- The declaration inside `ModuleDecl::ExportDecl`: exported `var`
declarators (those with a plain identifier pattern carry `some` name),
an exported function, an exported class, or anything else. -/
inductive EDecl where
  | varDecl (names : List (Option String))
  | fnDecl (name : String)
  | classDecl (name : String)
  | otherDecl
deriving DecidableEq, Repr

/-- One module-level item as seen by `visit_module_decl`. -/
inductive ModuleItem where
  | importItem (src : String)
  | exportDeclItem (d : EDecl)
  | exportNamedItem (origs : List String)
  | otherItem
deriving DecidableEq, Repr

/-- A parsed module as the visitors see it: the module-level declaration
stream in source order, and every identifier token of the whole tree in
visit order (for `UsageVisitor`). -/
structure Program where
  items : List ModuleItem
  idents : List String
deriving DecidableEq, Repr

/-- Rust `str::strip_suffix(".ts")`: `some t` iff the string is
`t ++ ".ts"`. -/
def stripTs (s : String) : Option String :=
  match s.data.reverse with
  | 's' :: 't' :: '.' :: rest => some (String.mk rest.reverse)
  | _ => none

/-- The import branch of `visit_module_decl`: a specifier with a `.ts`
suffix has it stripped and reattached; any other is pushed as is. -/
def pushImport (s : String) : String :=
  match stripTs s with
  | some t => t ++ ".ts"
  | none => s

/-- Fold one module item into the `ModuleInfo` under construction,
mirroring the `match` arms of `ImportExportVisitor::visit_module_decl`. -/
def visitItem (info : ModuleInfo) (it : ModuleItem) : ModuleInfo :=
  match it with
  | ModuleItem.importItem src =>
      { info with imports := info.imports ++ [pushImport src] }
  | ModuleItem.exportDeclItem d =>
      match d with
      | EDecl.varDecl names =>
          { info with exports :=
              names.foldl (fun ex n => match n with
                | some nm => insertNew ex nm
                | none => ex) info.exports }
      | EDecl.fnDecl nm => { info with exports := insertNew info.exports nm }
      | EDecl.classDecl nm => { info with exports := insertNew info.exports nm }
      | EDecl.otherDecl => info
  | ModuleItem.exportNamedItem origs =>
      { info with exports := origs.foldl insertNew info.exports }
  | ModuleItem.otherItem => info

/-- Run `ImportExportVisitor` then `UsageVisitor` over a parsed program,
starting from the `ModuleInfo` holding only the module id (as
`parse_module` does). -/
def extractInfo (path : String) (prog : Program) : ModuleInfo :=
  let afterItems := prog.items.foldl visitItem
    { id := path, imports := [], exports := [], used_symbols := [] }
  { afterItems with used_symbols := prog.idents.foldl insertNew [] }

/-- Mirrors `fn parse_module`: read the file (an I/O error propagates via
`?`); on a successful read, run the parser — a syntax error is swallowed
by `if let Ok(program) = …`, leaving the `ModuleInfo` that holds only the
id. `fs` is the filesystem (path → contents), `pf` the front-end parser. -/
def parse_module (fs : String → Except String String)
    (pf : String → Option Program) (path : String) :
    Except String ModuleInfo :=
  match fs path with
  | Except.error e => Except.error e
  | Except.ok src =>
      Except.ok (match pf src with
        | some prog => extractInfo path prog
        | none => { id := path, imports := [], exports := [], used_symbols := [] })

/-! ## Graph construction

`build_graph`'s inner `fn walk` is recursive both on the module being
processed and, within one module, on its import list. Both roles are
folded into one fuel-indexed function: `WalkTask.visit p` is a call
`walk(p, graph)`, `WalkTask.imports l p` is the `for imp in imports`
loop of the module at path `p` with remaining specifiers `l`. Fuel is
decremented on every step; `none` means the recursion has not returned
within the given fuel (or hit the `path.parent().unwrap()` panic, which
can only fire when the current path is empty or the bare root). -/

/-- A pending piece of `walk`'s recursion. -/
inductive WalkTask where
  | visit (path : String)
  | imports (rest : List String) (path : String)
deriving DecidableEq, Repr

/-- Fueled interpreter of `fn walk`. -/
def walkFuel (fs : String → Except String String)
    (pf : String → Option Program) :
    Nat → WalkTask → Graph → Option (Except String Graph)
  | 0, _, _ => none
  | Nat.succ f, WalkTask.visit path, g =>
      if (g.get path).isSome then some (Except.ok g)
      else
        match parse_module fs pf path with
        | Except.error e => some (Except.error e)
        | Except.ok info =>
            walkFuel fs pf f (WalkTask.imports info.imports path)
              (Graph.mk (g.modules ++ [(path, info)]))
  | Nat.succ _, WalkTask.imports [] _, g => some (Except.ok g)
  | Nat.succ f, WalkTask.imports (imp :: rest) path, g =>
      if startsWithDot imp then
        match pathParent path with
        | none => none
        | some dir =>
            match walkFuel fs pf f (WalkTask.visit (pjoin dir imp)) g with
            | some (Except.ok g2) =>
                walkFuel fs pf f (WalkTask.imports rest path) g2
            | some (Except.error e) => some (Except.error e)
            | none => none
      else walkFuel fs pf f (WalkTask.imports rest path) g

/-- Mirrors `pub fn build_graph`: run `walk` on the entry over the empty
graph. -/
def buildFuel (fs : String → Except String String)
    (pf : String → Option Program) (fuel : Nat) (entry : String) :
    Option (Except String Graph) :=
  walkFuel fs pf fuel (WalkTask.visit entry) (Graph.mk [])

/-! ## Tree shaking

`pub fn tree_shake(graph, entry)`. Phase 1 computes a reachable-module
set whose result the source never reads afterwards (`reachable` is dead
after the `dfs` call); it is embedded below as `dfsFuel` for completeness
but contributes nothing to the output. Phase 2 is the worklist loop over
`(module, symbol)` pairs; the final step adds every export of the entry
module. -/

/-- A pending piece of phase-1 `fn dfs`'s recursion: a call `dfs(id)`,
or the loop over a visited module's remaining import specifiers. -/
inductive DfsTask where
  | visit (id : String)
  | imports (rest : List String) (id : String)
deriving DecidableEq, Repr

/-- Fueled interpreter of phase-1 `fn dfs`: insert the id (returning if
already present), then recurse into the normalized relative imports of
the module, if the graph has it. Its result is dead code in the source. -/
def dfsFuel (g : Graph) :
    Nat → DfsTask → List String → Option (List String)
  | 0, _, _ => none
  | Nat.succ f, DfsTask.visit id, set =>
      if id ∈ set then some set
      else
        dfsFuel g f
          (DfsTask.imports
            (match g.get id with
              | some info => info.imports
              | none => []) id)
          (set ++ [id])
  | Nat.succ _, DfsTask.imports [] _, set => some set
  | Nat.succ f, DfsTask.imports (imp :: rest) id, set =>
      if startsWithDot imp then
        match dfsFuel g f (DfsTask.visit (normalize_path id imp)) set with
        | some s2 => dfsFuel g f (DfsTask.imports rest id) s2
        | none => none
      else dfsFuel g f (DfsTask.imports rest id) set

/-- The `format!("{}::{}", module, symbol)` kept-set key. -/
def mkKey (m s : String) : String :=
  m ++ "::" ++ s

/-- Does module `m` exist and export `s`? Mirrors the guarded kept-set
insertion `if let Some(info) … if info.exports.contains(&sym)`. -/
def exportHit (g : Graph) (m s : String) : Bool :=
  match g.get m with
  | some info => decide (s ∈ info.exports)
  | none => false

/-- Does module `p` exist and reference `s`? Mirrors the propagation
guard `if let Some(pinfo) … if pinfo.used_symbols.contains(&sym)`. -/
def usedHit (g : Graph) (p s : String) : Bool :=
  match g.get p with
  | some info => decide (s ∈ info.used_symbols)
  | none => false

/-- The reverse-dependency index at `m`: every module id that holds a
relative import resolving (via `normalize_path`) to `m`, once per
such specifier, in module-map order. Mirrors the `reverse: HashMap<String,
Vec<String>>` construction. -/
def parentsOf (g : Graph) (m : String) : List String :=
  g.modules.foldr
    (fun ent acc =>
      (ent.2.imports.filter
        (fun imp => startsWithDot imp && normalize_path ent.1 imp = m)).map
        (fun _ => ent.1) ++ acc)
    []

/-- The pairs pushed when `(m, s)` is popped: `(p, s)` for every
consumer `p` of `m` whose `used_symbols` contains `s`. -/
def succPairs (g : Graph) (m s : String) : List (String × String) :=
  ((parentsOf g m).filter (fun p => usedHit g p s)).map (fun p => (p, s))

/-- The worklist after popping `p` with remaining queue `rest`. The queue
is a stack (`Vec::push`/`Vec::pop` at the back); the head of the list is
the top, so the successors arrive reversed: the last parent pushed is
popped first. -/
def stepQueue (g : Graph) (p : String × String)
    (rest : List (String × String)) : List (String × String) :=
  (succPairs g p.1 p.2).reverse ++ rest

/-- The kept-set after popping `p`: insert `mkKey` when the popped
module exports the popped symbol. -/
def stepKeep (g : Graph) (p : String × String) (keep : List String) :
    List String :=
  if exportHit g p.1 p.2 then insertNew keep (mkKey p.1 p.2) else keep

/-- Fueled interpreter of the phase-2 `while let Some((mod_id, sym)) =
symbol_queue.pop()` loop. An empty queue returns the kept-set at any
fuel; `none` means the loop has not finished within the given fuel. -/
def loopFuel (g : Graph) :
    Nat → List (String × String) → List String → Option (List String)
  | _, [], keep => some keep
  | 0, _ :: _, _ => none
  | Nat.succ f, p :: rest, keep =>
      loopFuel g f (stepQueue g p rest) (stepKeep g p keep)

/-- The initial worklist: `(entry, sym)` for every symbol referenced by
the entry module (empty when the entry id is absent from the graph). -/
def shakeSeeds (g : Graph) (entry : String) : List (String × String) :=
  match g.get entry with
  | some info => info.used_symbols.map (fun s => (entry, s))
  | none => []

/-- The unconditional final step: add every export of the entry module
to the kept-set (a no-op when the entry id is absent). -/
def finalKeep (g : Graph) (entry : String) (keep : List String) :
    List String :=
  match g.get entry with
  | some info => info.exports.foldl (fun k e => insertNew k (mkKey entry e)) keep
  | none => keep

/-- Fueled `pub fn tree_shake`: phase-2 worklist from the seeds, then the
final entry-export step. `none` means the source loop diverges at this
fuel. -/
def tree_shakeFuel (g : Graph) (entry : String) (fuel : Nat) :
    Option (List String) :=
  match loopFuel g fuel (shakeSeeds g entry) [] with
  | some keep => some (finalKeep g entry keep)
  | none => none

/-! ## Graph cache

`pub fn cached_graph` with the process-wide `GRAPH_CACHE` made an
explicit argument (state passing): return the stored graph on a hit,
else build, store and return. A build error (`?`) propagates without
touching the cache. -/

/-- Mirrors `pub fn cached_graph`; the pair is (result, updated cache),
`none` again meaning the underlying build ran out of fuel. -/
def cached_graph (fs : String → Except String String)
    (pf : String → Option Program) (fuel : Nat)
    (cache : List (String × Graph)) (entry : String) :
    Option (Except String Graph × List (String × Graph)) :=
  match lookupStr cache entry with
  | some g => some (Except.ok g, cache)
  | none =>
      match buildFuel fs pf fuel entry with
      | none => none
      | some (Except.error e) => some (Except.error e, cache)
      | some (Except.ok g) => some (Except.ok g, (entry, g) :: cache)

/-! ## Concrete scenarios -/

/-- Front-end output for the file `d/a.ts`:
`import { fb } from "./b.ts"; export function fa() { fb() }`. -/
def progA : Program :=
  { items := [ModuleItem.importItem "./b.ts",
              ModuleItem.exportDeclItem (EDecl.fnDecl "fa")],
    idents := ["fb", "fa"] }

/-- Front-end output for the file `d/b.ts`:
`import { fa } from "./a.ts"; export function fb() { fa() }`. -/
def progB : Program :=
  { items := [ModuleItem.importItem "./a.ts",
              ModuleItem.exportDeclItem (EDecl.fnDecl "fb")],
    idents := ["fa", "fb"] }

/-- A directory `d` holding exactly the mutually importing `a.ts` and
`b.ts`; any spelling of a path resolving (POSIX `.`-elimination) to one
of them reads its source, every other path is unreadable. -/
def exFs1 : String → Except String String := fun p =>
  if canon p = "d/a.ts" then Except.ok "SRCA"
  else if canon p = "d/b.ts" then Except.ok "SRCB"
  else Except.error "file not found"

/-- The front-end for the two sources of `exFs1`. -/
def exPf1 : String → Option Program := fun s =>
  if s = "SRCA" then some progA
  else if s = "SRCB" then some progB
  else none

/-- Front-end output for `/d/.a.ts`:
`import { x } from ".b.ts"; x;` — a dotfile-style relative specifier,
chosen because resolution is stable on it (`normalize_path "/d/.a.ts"
".b.ts" = "/d/.b.ts"`), so the built graph is the honest two-module
cycle. -/
def progDotA : Program :=
  { items := [ModuleItem.importItem ".b.ts"], idents := ["x"] }

/-- Front-end output for `/d/.b.ts`:
`import { x } from ".a.ts"; x;`. -/
def progDotB : Program :=
  { items := [ModuleItem.importItem ".a.ts"], idents := ["x"] }

/-- A directory `/d` holding the mutually importing `.a.ts`/`.b.ts`. -/
def exFs2 : String → Except String String := fun p =>
  if canon p = "/d/.a.ts" then Except.ok "SRCDA"
  else if canon p = "/d/.b.ts" then Except.ok "SRCDB"
  else Except.error "file not found"

/-- The front-end for the two sources of `exFs2`. -/
def exPf2 : String → Option Program := fun s =>
  if s = "SRCDA" then some progDotA
  else if s = "SRCDB" then some progDotB
  else none

/-- The two-module cyclic graph `build_graph` produces from `exFs2` at
entry `/d/.a.ts`: each module relatively imports the other and both
reference the symbol `x`. -/
def gCycle : Graph :=
  Graph.mk
    [("/d/.a.ts",
      { id := "/d/.a.ts", imports := [".b.ts"], exports := [],
        used_symbols := ["x"] }),
     ("/d/.b.ts",
      { id := "/d/.b.ts", imports := [".a.ts"], exports := [],
        used_symbols := ["x"] })]

/-- The graph `build_graph` actually produces from `exFs1` at entry
`d/a.ts`: resolving `./b.ts` against directory `d` yields the id
`d/./b.ts` (`join` does not normalize), and resolving `./a.ts` from
there yields `d/./a.ts`, an alias of the entry's file under a second id,
so `a.ts` is parsed twice. -/
def gDup : Graph :=
  Graph.mk
    [("d/a.ts",
      { id := "d/a.ts", imports := ["./b.ts"], exports := ["fa"],
        used_symbols := ["fb", "fa"] }),
     ("d/./b.ts",
      { id := "d/./b.ts", imports := ["./a.ts"], exports := ["fb"],
        used_symbols := ["fa", "fb"] }),
     ("d/./a.ts",
      { id := "d/./a.ts", imports := ["./b.ts"], exports := ["fa"],
        used_symbols := ["fb", "fa"] })]

/-- A two-module graph with no imports at all: each module only exports
one symbol. Used for concrete worklist runs and entry-surface checks. -/
def gEnt : Graph :=
  Graph.mk
    [("m", { id := "m", imports := [], exports := ["u"], used_symbols := [] }),
     ("n", { id := "n", imports := [], exports := ["v"], used_symbols := [] })]

/-- A one-file filesystem for the cache scenario. -/
def exFs3 : String → Except String String := fun p =>
  if p = "/e" then Except.ok "SRCE" else Except.error "no such file"

/-- Front-end for `exFs3`: the file parses to an empty module. -/
def exPf3 : String → Option Program := fun s =>
  if s = "SRCE" then some { items := [], idents := [] } else none

/-- The one-module graph built from `exFs3`. -/
def gOne : Graph :=
  Graph.mk [("/e", { id := "/e", imports := [], exports := [], used_symbols := [] })]

/-- The phase-2 worklist as a nondeterministic run: `ShakeRun g queue
keep out` holds when some processing order of the worklist loop, started
at `queue` with kept-set `keep`, terminates with kept-set `out`. Each
step removes an arbitrary pending pair (the decomposition `l ++ p :: r`)
and performs the loop body on it; the deterministic `loopFuel` is the
instance that always picks the head. -/
inductive ShakeRun (g : Graph) :
    List (String × String) → List String → List String → Prop where
  | done (keep : List String) : ShakeRun g [] keep keep
  | step (l r : List (String × String)) (p : String × String)
      (keep out : List String)
      (h : ShakeRun g (stepQueue g p (l ++ r)) (stepKeep g p keep) out) :
      ShakeRun g (l ++ p :: r) keep out

/-- The pairs the worklist can ever process from a starting queue: its
members, closed under pushing to consumers that reference the symbol. -/
inductive ReachPair (g : Graph) (seeds : List (String × String)) :
    (String × String) → Prop where
  | seed (p : String × String) (h : p ∈ seeds) : ReachPair g seeds p
  | prop (m s : String) (x : String × String)
      (hr : ReachPair g seeds (m, s)) (hx : x ∈ succPairs g m s) :
      ReachPair g seeds x

/-- All modules recorded so far were read successfully. -/
def GoodFs (fs : String → Except String String) (g : Graph) : Prop :=
  ∀ kv ∈ g.modules, ∃ c, fs kv.1 = Except.ok c

/-- The specifier of an import item, `none` for any other item. -/
def itemImportSrc : ModuleItem → Option String := fun it =>
  match it with
  | ModuleItem.importItem s => some s
  | _ => none

/-! ## Sanity checks of the path model -/

example : pathParent "d/a.ts" = some "d" := by decide
example : pathParent "d/./b.ts" = some "d" := by decide
example : pathParent "./b.ts" = some "." := by decide
example : pathParent "a.ts" = some "" := by decide
example : pathParent "/" = none := by decide
example : pathParent "/d/.b.ts" = some "/d" := by decide
example : pjoin "d" "./b.ts" = "d/./b.ts" := by decide
example : normalize_path "d/./a.ts" "./b.ts" = "d/./b.ts" := by decide
example : canon "d/./a.ts" = "d/a.ts" := by decide

/-! ## Basic lemmas about the set model -/

theorem mem_insertNew {l : List String} {x y : String} :
    x ∈ insertNew l y ↔ x ∈ l ∨ x = y := by
  unfold insertNew
  by_cases h : y ∈ l
  · simp only [if_pos h]
    constructor
    · exact Or.inl
    · rintro (hx | rfl)
      · exact hx
      · exact h
  · simp [if_neg h]

theorem subset_insertNew {l : List String} {x y : String} (h : x ∈ l) :
    x ∈ insertNew l y :=
  mem_insertNew.mpr (Or.inl h)

theorem mem_foldl_insertNew (f : String → String) :
    ∀ (xs : List String) (acc : List String) (x : String),
      x ∈ xs.foldl (fun a e => insertNew a (f e)) acc ↔
        x ∈ acc ∨ ∃ e ∈ xs, x = f e := by
  intro xs
  induction xs with
  | nil => simp
  | cons e rest ih =>
      intro acc x
      simp only [List.foldl_cons, ih, mem_insertNew, List.mem_cons]
      constructor
      · rintro ((hx | rfl) | ⟨e2, he2, rfl⟩)
        · exact Or.inl hx
        · exact Or.inr ⟨e, Or.inl rfl, rfl⟩
        · exact Or.inr ⟨e2, Or.inr he2, rfl⟩
      · rintro (hx | ⟨e2, (rfl | he2), rfl⟩)
        · exact Or.inl (Or.inl hx)
        · exact Or.inl (Or.inr rfl)
        · exact Or.inr ⟨e2, he2, rfl⟩

theorem exportHit_iff {g : Graph} {m s : String} :
    exportHit g m s = true ↔ ∃ info, g.get m = some info ∧ s ∈ info.exports := by
  unfold exportHit
  cases h : g.get m with
  | none => simp
  | some info => simp [h]

theorem loopFuel_toRun {g : Graph} :
    ∀ (fuel : Nat) (q : List (String × String)) (keep out : List String),
      loopFuel g fuel q keep = some out → ShakeRun g q keep out := by
  intro fuel
  induction fuel with
  | zero =>
      intro q keep out h
      cases q with
      | nil =>
          simp only [loopFuel, Option.some.injEq] at h
          exact h ▸ ShakeRun.done keep
      | cons p rest => simp [loopFuel] at h
  | succ f ih =>
      intro q keep out h
      cases q with
      | nil =>
          simp only [loopFuel, Option.some.injEq] at h
          exact h ▸ ShakeRun.done keep
      | cons p rest =>
          simp only [loopFuel] at h
          exact ShakeRun.step [] rest p keep out (ih _ _ _ h)

theorem shakeRun_keep_subset {g : Graph}
    {q : List (String × String)} {keep out : List String}
    (hrun : ShakeRun g q keep out) : ∀ x ∈ keep, x ∈ out := by
  induction hrun with
  | done keep => exact fun x hx => hx
  | step l r p keep out h ih =>
      intro x hx
      apply ih
      unfold stepKeep
      by_cases hhit : exportHit g p.1 p.2
      · simp only [if_pos hhit]
        exact subset_insertNew hx
      · simpa [if_neg hhit] using hx

theorem reachPair_nil {g : Graph} {x : String × String}
    (h : ReachPair g [] x) : False := by
  induction h with
  | seed p hp => cases hp
  | prop m s x hr hx ih => exact ih

theorem reachPair_congr {g : Graph}
    {q1 q2 : List (String × String)} (hq : ∀ p, p ∈ q1 ↔ p ∈ q2)
    {x : String × String} (h : ReachPair g q1 x) : ReachPair g q2 x := by
  induction h with
  | seed p hp => exact ReachPair.seed p ((hq p).mp hp)
  | prop m s x hr hx ih => exact ReachPair.prop m s x ih hx

theorem mem_stepQueue {g : Graph} {p : String × String}
    {rest : List (String × String)} {x : String × String} :
    x ∈ stepQueue g p rest ↔ x ∈ succPairs g p.1 p.2 ∨ x ∈ rest := by
  unfold stepQueue
  simp [List.mem_append, List.mem_reverse]

theorem reachPair_step_or {g : Graph}
    {l r : List (String × String)} {p : String × String}
    {x : String × String} (h : ReachPair g (l ++ p :: r) x) :
    ReachPair g (stepQueue g p (l ++ r)) x ∨ x = p := by
  induction h with
  | seed y hy =>
      rcases List.mem_append.mp hy with hl | hpr
      · have : y ∈ stepQueue g p (l ++ r) :=
          mem_stepQueue.mpr (Or.inr (List.mem_append.mpr (Or.inl hl)))
        exact Or.inl (ReachPair.seed y this)
      · rcases List.mem_cons.mp hpr with rfl | hr2
        · exact Or.inr rfl
        · have : y ∈ stepQueue g p (l ++ r) :=
            mem_stepQueue.mpr (Or.inr (List.mem_append.mpr (Or.inr hr2)))
          exact Or.inl (ReachPair.seed y this)
  | prop m s y hr hy ih =>
      rcases ih with hnew | heq
      · exact Or.inl (ReachPair.prop m s y hnew hy)
      · have hsucc : y ∈ succPairs g p.1 p.2 := by
          rw [← heq]
          exact hy
        exact Or.inl (ReachPair.seed y (mem_stepQueue.mpr (Or.inl hsucc)))

theorem reachPair_step_back {g : Graph}
    {l r : List (String × String)} {p : String × String}
    {x : String × String} (h : ReachPair g (stepQueue g p (l ++ r)) x) :
    ReachPair g (l ++ p :: r) x := by
  have hp : ReachPair g (l ++ p :: r) p :=
    ReachPair.seed p (List.mem_append.mpr (Or.inr (List.mem_cons_self p r)))
  induction h with
  | seed y hy =>
      rcases mem_stepQueue.mp hy with hs | hlr
      · exact ReachPair.prop p.1 p.2 y hp hs
      · rcases List.mem_append.mp hlr with hl | hr2
        · exact ReachPair.seed y (List.mem_append.mpr (Or.inl hl))
        · have : y ∈ l ++ p :: r :=
            List.mem_append.mpr (Or.inr (List.mem_cons_of_mem p hr2))
          exact ReachPair.seed y this
  | prop m s y hr hy ih => exact ReachPair.prop m s y ih hy

/-- Completeness of a terminating run: every reachable pair whose module
exports its symbol ends up in the kept-set. -/
theorem shakeRun_complete {g : Graph}
    {q : List (String × String)} {keep out : List String}
    (hrun : ShakeRun g q keep out) :
    ∀ m s, ReachPair g q (m, s) → exportHit g m s = true → mkKey m s ∈ out := by
  induction hrun with
  | done keep =>
      intro m s hr _
      exact absurd hr reachPair_nil
  | step l r p keep out h ih =>
      intro m s hr hhit
      rcases reachPair_step_or hr with hnew | heq
      · exact ih m s hnew hhit
      · apply shakeRun_keep_subset h
        unfold stepKeep
        have : exportHit g p.1 p.2 = true := by rw [← heq]; exact hhit
        rw [if_pos this]
        have : mkKey m s = mkKey p.1 p.2 := by rw [← heq]
        rw [this]
        exact mem_insertNew.mpr (Or.inr rfl)

/-- Soundness of a terminating run: everything in the final kept-set was
there initially or is the key of a reachable exported pair. -/
theorem shakeRun_sound {g : Graph}
    {q : List (String × String)} {keep out : List String}
    (hrun : ShakeRun g q keep out) :
    ∀ x ∈ out, x ∈ keep ∨
      ∃ m s, ReachPair g q (m, s) ∧ exportHit g m s = true ∧ x = mkKey m s := by
  induction hrun with
  | done keep => exact fun x hx => Or.inl hx
  | step l r p keep out h ih =>
      intro x hx
      have hp : ReachPair g (l ++ p :: r) p :=
        ReachPair.seed p (List.mem_append.mpr (Or.inr (List.mem_cons_self p r)))
      rcases ih x hx with hk | ⟨m, s, hr, hhit, rfl⟩
      · unfold stepKeep at hk
        by_cases hhit : exportHit g p.1 p.2
        · rw [if_pos hhit] at hk
          rcases mem_insertNew.mp hk with hk2 | rfl
          · exact Or.inl hk2
          · exact Or.inr ⟨p.1, p.2, hp, hhit, rfl⟩
        · rw [if_neg hhit] at hk
          exact Or.inl hk
      · exact Or.inr ⟨m, s, reachPair_step_back hr, hhit, rfl⟩

/-- Every reachable pair carries a symbol already present among the
starting queue's symbols (propagation never changes the symbol). -/
theorem reachPair_symbol {g : Graph}
    {q : List (String × String)} {x : String × String}
    (h : ReachPair g q x) : ∃ p ∈ q, x.2 = p.2 := by
  induction h with
  | seed p hp => exact ⟨p, hp, rfl⟩
  | prop m s y hr hy ih =>
      rcases ih with ⟨p0, hp0, hsym⟩
      refine ⟨p0, hp0, ?_⟩
      unfold succPairs at hy
      rcases List.mem_map.mp hy with ⟨par, _, rfl⟩
      exact hsym

/-! ## Parsing kept-set keys back apart

Kept-set entries are `module ++ "::" ++ symbol`. When the symbol parts
are free of `:` (as identifiers produced by a parser are), the symbol
part of a key is unambiguous. -/

theorem append_colon_eq :
    ∀ (u v t w : List Char), ':' ∉ u → ':' ∉ v →
      u ++ ':' :: t = v ++ ':' :: w → u = v ∧ t = w := by
  intro u
  induction u with
  | nil =>
      intro v t w _ hv h
      cases v with
      | nil => simpa using h
      | cons d v2 =>
          simp only [List.nil_append, List.cons_append, List.cons.injEq] at h
          exact absurd (h.1 ▸ List.mem_cons_self d v2) hv
  | cons c u2 ih =>
      intro v t w hu hv h
      cases v with
      | nil =>
          simp only [List.nil_append, List.cons_append, List.cons.injEq] at h
          exact absurd (h.1 ▸ List.mem_cons_self c u2) hu
      | cons d v2 =>
          simp only [List.cons_append, List.cons.injEq] at h
          have hu2 : ':' ∉ u2 := fun hm => hu (List.mem_cons_of_mem c hm)
          have hv2 : ':' ∉ v2 := fun hm => hv (List.mem_cons_of_mem d hm)
          rcases ih v2 t w hu2 hv2 h.2 with ⟨rfl, rfl⟩
          exact ⟨by rw [h.1], rfl⟩

theorem mkKey_data (m s : String) :
    (mkKey m s).data = m.data ++ ':' :: ':' :: s.data := by
  cases m with
  | mk md =>
      cases s with
      | mk sd => simp [mkKey, String.instAppend, String.append]

/-- With colon-free symbol parts, the symbol of a key is determined. -/
theorem mkKey_symbol_inj {a s b y : String}
    (hs : ':' ∉ s.data) (hy : ':' ∉ y.data) (h : mkKey a s = mkKey b y) :
    s = y := by
  have hdata : (mkKey a s).data = (mkKey b y).data := by rw [h]
  rw [mkKey_data, mkKey_data] at hdata
  have hrev : (a.data ++ ':' :: ':' :: s.data).reverse =
      (b.data ++ ':' :: ':' :: y.data).reverse := by rw [hdata]
  simp only [List.reverse_append, List.reverse_cons] at hrev
  have hrev2 : s.data.reverse ++ ':' :: (':' :: a.data.reverse) =
      y.data.reverse ++ ':' :: (':' :: b.data.reverse) := by
    have e1 : ((s.data.reverse ++ [':']) ++ [':']) ++ a.data.reverse =
        s.data.reverse ++ ':' :: (':' :: a.data.reverse) := by
      simp
    have e2 : ((y.data.reverse ++ [':']) ++ [':']) ++ b.data.reverse =
        y.data.reverse ++ ':' :: (':' :: b.data.reverse) := by
      simp
    rw [← e1, ← e2]
    simpa using hrev
  have hs2 : ':' ∉ s.data.reverse := by
    intro hm
    exact hs (List.mem_reverse.mp hm)
  have hy2 : ':' ∉ y.data.reverse := by
    intro hm
    exact hy (List.mem_reverse.mp hm)
  have := (append_colon_eq _ _ _ _ hs2 hy2 hrev2).1
  have hdd : s.data = y.data := by
    have := congrArg List.reverse this
    simpa using this
  cases s with
  | mk sd =>
      cases y with
      | mk yd =>
          have : sd = yd := by simpa using hdd
          rw [this]

/-! ## Characterizing the output of tree shaking -/

theorem mem_finalKeep {g : Graph} {entry : String} {keep : List String}
    {x : String} :
    x ∈ finalKeep g entry keep ↔ x ∈ keep ∨
      ∃ info, g.get entry = some info ∧ ∃ e ∈ info.exports, x = mkKey entry e := by
  unfold finalKeep
  cases h : g.get entry with
  | none => simp
  | some info => simp [mem_foldl_insertNew (mkKey entry), h]

theorem mem_shakeSeeds {g : Graph} {entry : String} {p : String × String}
    (h : p ∈ shakeSeeds g entry) :
    ∃ info, g.get entry = some info ∧ p.1 = entry ∧ p.2 ∈ info.used_symbols := by
  unfold shakeSeeds at h
  cases hg : g.get entry with
  | none => rw [hg] at h; cases h
  | some info =>
      rw [hg] at h
      rcases List.mem_map.mp h with ⟨s, hs, rfl⟩
      exact ⟨info, rfl, rfl, hs⟩

/-! ## Error propagation through graph construction -/

theorem parse_module_error {fs : String → Except String String}
    {pf : String → Option Program} {path e : String}
    (h : parse_module fs pf path = Except.error e) :
    fs path = Except.error e := by
  unfold parse_module at h
  cases hf : fs path with
  | error e2 =>
      rw [hf] at h
      have h2 : e2 = e := by simpa using h
      rw [h2]
  | ok src => rw [hf] at h; cases h

theorem parse_module_ok_read {fs : String → Except String String}
    {pf : String → Option Program} {path : String} {info : ModuleInfo}
    (h : parse_module fs pf path = Except.ok info) :
    ∃ c, fs path = Except.ok c := by
  unfold parse_module at h
  cases hf : fs path with
  | error e2 => rw [hf] at h; cases h
  | ok src => exact ⟨src, rfl⟩

theorem walkFuel_error (fs : String → Except String String)
    (pf : String → Option Program) :
    ∀ (f : Nat) (task : WalkTask) (g : Graph) (err : String),
      walkFuel fs pf f task g = some (Except.error err) →
      ∃ p, fs p = Except.error err := by
  intro f
  induction f with
  | zero =>
      intro task g err h
      simp [walkFuel] at h
  | succ f ih =>
      intro task g err h
      cases task with
      | visit path =>
          simp only [walkFuel] at h
          split at h
          · simp at h
          · split at h
            · rename_i e heq
              have : e = err := by
                simpa using h
              exact ⟨path, parse_module_error (this ▸ heq)⟩
            · exact ih _ _ _ h
      | imports rest path =>
          cases rest with
          | nil => simp [walkFuel] at h
          | cons imp rest2 =>
              simp only [walkFuel] at h
              split at h
              · split at h
                · simp at h
                · split at h
                  · exact ih _ _ _ h
                  · rename_i e heq
                    have : e = err := by simpa using h
                    exact ih _ _ _ (this ▸ heq)
                  · simp at h
              · exact ih _ _ _ h

theorem walkFuel_good (fs : String → Except String String)
    (pf : String → Option Program) :
    ∀ (f : Nat) (task : WalkTask) (g g' : Graph),
      GoodFs fs g → walkFuel fs pf f task g = some (Except.ok g') →
      GoodFs fs g' := by
  intro f
  induction f with
  | zero =>
      intro task g g' _ h
      simp [walkFuel] at h
  | succ f ih =>
      intro task g g' hg h
      cases task with
      | visit path =>
          simp only [walkFuel] at h
          split at h
          · have : g = g' := by simpa using h
            exact this ▸ hg
          · split at h
            · simp at h
            · rename_i info heq
              apply ih _ _ _ _ h
              intro kv hkv
              rcases List.mem_append.mp hkv with hold | hnew
              · exact hg kv hold
              · rcases List.mem_singleton.mp hnew with rfl
                exact parse_module_ok_read heq
      | imports rest path =>
          cases rest with
          | nil =>
              have : g = g' := by simpa [walkFuel] using h
              exact this ▸ hg
          | cons imp rest2 =>
              simp only [walkFuel] at h
              split at h
              · split at h
                · simp at h
                · split at h
                  · rename_i g2 heq2
                    exact ih _ _ _ (ih _ _ _ hg heq2) h
                  · simp at h
                  · simp at h
              · exact ih _ _ _ hg h

/-! ## The extractor records specifiers verbatim -/

theorem mk_append (l1 l2 : List Char) :
    String.mk l1 ++ String.mk l2 = String.mk (l1 ++ l2) := rfl

theorem pushImport_id : ∀ s : String, pushImport s = s := by
  intro s
  unfold pushImport
  cases h : stripTs s with
  | none => rfl
  | some t =>
      unfold stripTs at h
      split at h
      · rename_i rest heq
        have ht : t = String.mk rest.reverse := by
          simpa using h.symm
        have hdata : s.data = rest.reverse ++ ['.', 't', 's'] := by
          have := congrArg List.reverse heq
          simpa using this
        cases s with
        | mk sd =>
            have hsd : sd = rest.reverse ++ ['.', 't', 's'] := by
              simpa using hdata
            rw [ht]
            show String.mk rest.reverse ++ { data := ['.', 't', 's'] } =
              String.mk sd
            rw [hsd]
            exact mk_append rest.reverse ['.', 't', 's']
      · cases h

theorem foldl_visitItem_imports :
    ∀ (items : List ModuleItem) (info : ModuleInfo),
      (items.foldl visitItem info).imports =
        info.imports ++ items.filterMap itemImportSrc := by
  intro items
  induction items with
  | nil => simp
  | cons it rest ih =>
      intro info
      cases it with
      | importItem src =>
          simp [visitItem, ih, itemImportSrc, pushImport_id src]
      | exportDeclItem d =>
          cases d with
          | varDecl names => simp [visitItem, ih, itemImportSrc]
          | fnDecl nm => simp [visitItem, ih, itemImportSrc]
          | classDecl nm => simp [visitItem, ih, itemImportSrc]
          | otherDecl => simp [visitItem, ih, itemImportSrc]
      | exportNamedItem origs => simp [visitItem, ih, itemImportSrc]
      | otherItem => simp [visitItem, ih, itemImportSrc]

theorem tree_shakeFuel_some {g : Graph} {entry : String} {fuel : Nat}
    {keep : List String} (h : tree_shakeFuel g entry fuel = some keep) :
    ∃ lk, loopFuel g fuel (shakeSeeds g entry) [] = some lk ∧
      keep = finalKeep g entry lk := by
  unfold tree_shakeFuel at h
  cases hl : loopFuel g fuel (shakeSeeds g entry) [] with
  | none => rw [hl] at h; cases h
  | some lk =>
      rw [hl] at h
      exact ⟨lk, rfl, (Option.some.injEq _ _ ▸ h).symm⟩

/-! ## Claim C2: the worklist loop does not terminate on cycles -/

theorem loopFuel_gCycle_diverges :
    ∀ fuel : Nat,
      loopFuel gCycle fuel [("/d/.a.ts", "x")] [] = none ∧
      loopFuel gCycle fuel [("/d/.b.ts", "x")] [] = none := by
  intro fuel
  induction fuel with
  | zero => exact ⟨rfl, rfl⟩
  | succ f ih =>
      constructor
      · have hstep : loopFuel gCycle (Nat.succ f) [("/d/.a.ts", "x")] [] =
            loopFuel gCycle f (stepQueue gCycle ("/d/.a.ts", "x") [])
              (stepKeep gCycle ("/d/.a.ts", "x") []) := rfl
        rw [hstep,
          (show stepQueue gCycle ("/d/.a.ts", "x") [] = [("/d/.b.ts", "x")] by decide),
          (show stepKeep gCycle ("/d/.a.ts", "x") [] = [] by decide)]
        exact ih.2
      · have hstep : loopFuel gCycle (Nat.succ f) [("/d/.b.ts", "x")] [] =
            loopFuel gCycle f (stepQueue gCycle ("/d/.b.ts", "x") [])
              (stepKeep gCycle ("/d/.b.ts", "x") []) := rfl
        rw [hstep,
          (show stepQueue gCycle ("/d/.b.ts", "x") [] = [("/d/.a.ts", "x")] by decide),
          (show stepKeep gCycle ("/d/.b.ts", "x") [] = [] by decide)]
        exact ih.1

/-- Claim C2 (refuted by the code, supporting the code_bug verdict):
`tree_shake` does not terminate on every finite graph. On the two-module
cyclic graph `gCycle` — which `build_graph` itself produces from a real
directory of two mutually importing files sharing the referenced symbol
`x` — the phase-2 worklist alternates between the two `(module, "x")`
pairs forever, because the source never deduplicates processed pairs;
the fueled interpreter returns `none` at every fuel. -/
theorem tree_shake_cycle_diverges :
    buildFuel exFs2 exPf2 12 "/d/.a.ts" = some (Except.ok gCycle) ∧
    ∀ fuel : Nat, tree_shakeFuel gCycle "/d/.a.ts" fuel = none := by
  refine ⟨by decide, ?_⟩
  intro fuel
  unfold tree_shakeFuel
  rw [(show shakeSeeds gCycle "/d/.a.ts" = [("/d/.a.ts", "x")] by decide)]
  rw [(loopFuel_gCycle_diverges fuel).1]

/-! ## Claim C1: a mutual-import cycle re-parses the entry -/

/-- Claim C1 (refuted by the code, supporting the code_bug verdict): on
the directory `d` with `a.ts` and `b.ts` importing each other via
`./b.ts` / `./a.ts`, `build_graph "d/a.ts"` terminates but produces
THREE module entries: the entry's file appears both as `d/a.ts` and
under the alias `d/./a.ts` (the same file after POSIX resolution, as
`canon` shows), so it is parsed twice — not exactly once. -/
theorem build_graph_cycle_reparses_entry :
    buildFuel exFs1 exPf1 12 "d/a.ts" = some (Except.ok gDup) ∧
    gDup.keys = ["d/a.ts", "d/./b.ts", "d/./a.ts"] ∧
    canon "d/./a.ts" = canon "d/a.ts" ∧
    ("d/./a.ts" ≠ "d/a.ts") := by
  refine ⟨by decide, by decide, by decide, by decide⟩

/-! ## Claim C3: the entry surface guarantee -/

/-- Claim C3: for every graph and entry id present in the graph, every
name in the entry's exports appears in the kept-set returned by
`tree_shake` as `entry::name`, whether or not the entry references it. -/
theorem tree_shake_entry_surface (g : Graph) (entry : String) (fuel : Nat)
    (keep : List String) (info : ModuleInfo) (n : String)
    (hres : tree_shakeFuel g entry fuel = some keep)
    (hinfo : g.get entry = some info) (hn : n ∈ info.exports) :
    mkKey entry n ∈ keep := by
  rcases tree_shakeFuel_some hres with ⟨lk, hl, rfl⟩
  exact mem_finalKeep.mpr (Or.inr ⟨info, hinfo, n, hn, rfl⟩)

theorem tree_shake_entry_surface_witness : mkKey "m" "u" ∈ ["m::u"] :=
  tree_shake_entry_surface gEnt "m" 1 ["m::u"]
    { id := "m", imports := [], exports := ["u"], used_symbols := [] } "u"
    (by decide) (by decide) (by decide)

/-! ## Claim C4: no propagation across unrelated names -/

/-- Claim C4: if the entry module neither references nor exports a
(colon-free) name `y`, then no `module::y` key appears in the kept-set:
the worklist only ever carries symbols referenced by the entry, and the
final step only adds the entry's own exports. -/
theorem tree_shake_no_unrelated_name (g : Graph) (entry y : String)
    (fuel : Nat) (keep : List String) (info : ModuleInfo)
    (hres : tree_shakeFuel g entry fuel = some keep)
    (hinfo : g.get entry = some info)
    (hyu : y ∉ info.used_symbols) (hye : y ∉ info.exports)
    (hcu : ∀ s ∈ info.used_symbols, ':' ∉ s.data)
    (hce : ∀ s ∈ info.exports, ':' ∉ s.data)
    (hcy : ':' ∉ y.data) :
    ∀ m, mkKey m y ∉ keep := by
  intro m hmem
  rcases tree_shakeFuel_some hres with ⟨lk, hl, hkeep⟩
  rw [hkeep] at hmem
  rcases mem_finalKeep.mp hmem with hlk | ⟨info2, hinfo2, e, he, hkey⟩
  · have hrun := loopFuel_toRun fuel _ _ _ hl
    rcases shakeRun_sound hrun _ hlk with hk0 | ⟨m2, s2, hr, hhit, hkey⟩
    · cases hk0
    · rcases reachPair_symbol hr with ⟨p0, hp0, hsym⟩
      rcases mem_shakeSeeds hp0 with ⟨info3, hinfo3, hp1, hp2⟩
      have hinfoeq : info3 = info := by
        rw [hinfo] at hinfo3
        exact (Option.some.injEq _ _).mp hinfo3.symm
      have hs2used : s2 ∈ info.used_symbols := by
        rw [← hinfoeq]
        have hsym2 : s2 = p0.2 := hsym
        rw [hsym2]
        exact hp2
      have hs2cf : ':' ∉ s2.data := hcu s2 hs2used
      have : y = s2 := mkKey_symbol_inj hcy hs2cf hkey
      exact hyu (this ▸ hs2used)
  · have hinfoeq : info2 = info := by
      rw [hinfo] at hinfo2
      exact (Option.some.injEq _ _).mp hinfo2.symm
    have hecf : ':' ∉ e.data := hce e (hinfoeq ▸ he)
    have : e = y := mkKey_symbol_inj hecf hcy hkey.symm
    exact hye (this ▸ hinfoeq ▸ he)

theorem tree_shake_no_unrelated_name_witness : mkKey "q" "w" ∉ ["m::u"] :=
  tree_shake_no_unrelated_name gEnt "m" "w" 1 ["m::u"]
    { id := "m", imports := [], exports := ["u"], used_symbols := [] }
    (by decide) (by decide) (by decide) (by decide)
    (by intro s hs; cases hs) (by decide) (by decide) "q"

/-! ## Claim C5: worklist order does not matter -/

/-- Claim C5: any two terminating runs of the phase-2 worklist loop that
start from queues with the same pending pairs — in particular the same
queue processed in different orders, or hash-order permutations of the
seeds — produce kept-sets with the same members: both equal the keys of
reachable exported pairs. -/
theorem tree_shake_order_independent (g : Graph)
    (q1 q2 : List (String × String)) (k1 k2 : List String)
    (hq : ∀ p, p ∈ q1 ↔ p ∈ q2)
    (r1 : ShakeRun g q1 [] k1) (r2 : ShakeRun g q2 [] k2) :
    ∀ x, x ∈ k1 ↔ x ∈ k2 := by
  have main : ∀ (qa qb : List (String × String)) (ka kb : List String),
      (∀ p, p ∈ qa ↔ p ∈ qb) → ShakeRun g qa [] ka → ShakeRun g qb [] kb →
      ∀ x, x ∈ ka → x ∈ kb := by
    intro qa qb ka kb hab ra rb x hx
    rcases shakeRun_sound ra x hx with hk | ⟨m, s, hr, hhit, rfl⟩
    · cases hk
    · exact shakeRun_complete rb m s (reachPair_congr hab hr) hhit
  intro x
  constructor
  · exact main q1 q2 k1 k2 hq r1 r2 x
  · exact main q2 q1 k2 k1 (fun p => (hq p).symm) r2 r1 x

theorem tree_shake_order_independent_witness :
    ("n::v" ∈ ["m::u", "n::v"] ↔ "n::v" ∈ ["n::v", "m::u"]) ∧
    ("m::u" ∈ ["m::u", "n::v"] ↔ "m::u" ∈ ["n::v", "m::u"]) := by
  have r1 : ShakeRun gEnt [("m", "u"), ("n", "v")] [] ["m::u", "n::v"] := by
    refine ShakeRun.step [] [("n", "v")] ("m", "u") [] _ ?_
    rw [(show stepQueue gEnt ("m", "u") ([] ++ [("n", "v")]) = [("n", "v")] by decide),
      (show stepKeep gEnt ("m", "u") [] = ["m::u"] by decide)]
    refine ShakeRun.step [] [] ("n", "v") ["m::u"] _ ?_
    rw [(show stepQueue gEnt ("n", "v") ([] ++ []) = [] by decide),
      (show stepKeep gEnt ("n", "v") ["m::u"] = ["m::u", "n::v"] by decide)]
    exact ShakeRun.done _
  have r2 : ShakeRun gEnt [("m", "u"), ("n", "v")] [] ["n::v", "m::u"] := by
    refine ShakeRun.step [("m", "u")] [] ("n", "v") [] _ ?_
    rw [(show stepQueue gEnt ("n", "v") ([("m", "u")] ++ []) = [("m", "u")] by decide),
      (show stepKeep gEnt ("n", "v") [] = ["n::v"] by decide)]
    refine ShakeRun.step [] [] ("m", "u") ["n::v"] _ ?_
    rw [(show stepQueue gEnt ("m", "u") ([] ++ []) = [] by decide),
      (show stepKeep gEnt ("m", "u") ["n::v"] = ["n::v", "m::u"] by decide)]
    exact ShakeRun.done _
  refine ⟨?_, ?_⟩
  · exact tree_shake_order_independent gEnt _ _ _ _ (fun p => Iff.rfl) r1 r2 "n::v"
  · exact tree_shake_order_independent gEnt _ _ _ _ (fun p => Iff.rfl) r1 r2 "m::u"

/-! ## Claim C6: graceful degradation on syntax failure -/

/-- Claim C6: when a module's file reads successfully but the front-end
cannot parse its contents, `parse_module` still returns `Ok`, with a
`ModuleInfo` holding the module's path as id and empty imports, exports
and used-symbols — graph construction continues. -/
theorem parse_module_syntax_failure (fs : String → Except String String)
    (pf : String → Option Program) (p src : String)
    (hread : fs p = Except.ok src) (hparse : pf src = none) :
    parse_module fs pf p =
      Except.ok { id := p, imports := [], exports := [], used_symbols := [] } := by
  unfold parse_module
  rw [hread]
  simp [hparse]

theorem parse_module_syntax_failure_witness :
    parse_module (fun _ => Except.ok "garbage") (fun _ => none) "m.ts" =
      Except.ok { id := "m.ts", imports := [], exports := [], used_symbols := [] } :=
  parse_module_syntax_failure (fun _ => Except.ok "garbage") (fun _ => none)
    "m.ts" "garbage" rfl rfl

/-! ## Claim C7: I/O failure is fatal, success implies readable files -/

/-- Claim C7: an error returned by `build_graph` always originates from a
failed file read (and by the `Except` shape no partial graph accompanies
it); a successful build returns a graph every one of whose module keys
was readable; and with a fully readable filesystem no error is ever
returned. -/
theorem build_graph_io_failure (fs : String → Except String String)
    (pf : String → Option Program) :
    (∀ (fuel : Nat) (entry err : String),
      buildFuel fs pf fuel entry = some (Except.error err) →
      ∃ p, fs p = Except.error err) ∧
    (∀ (fuel : Nat) (entry : String) (g : Graph),
      buildFuel fs pf fuel entry = some (Except.ok g) →
      ∀ k ∈ g.keys, ∃ c, fs k = Except.ok c) ∧
    ((∀ p, ∃ c, fs p = Except.ok c) →
      ∀ (fuel : Nat) (entry err : String),
        buildFuel fs pf fuel entry = some (Except.error err) → False) := by
  refine ⟨?_, ?_, ?_⟩
  · intro fuel entry err h
    exact walkFuel_error fs pf fuel _ _ err h
  · intro fuel entry g h k hk
    have hgood : GoodFs fs g := by
      apply walkFuel_good fs pf fuel _ (Graph.mk []) g _ h
      intro kv hkv
      cases hkv
    rcases List.mem_map.mp hk with ⟨kv, hkv, rfl⟩
    exact hgood kv hkv
  · intro hall fuel entry err h
    rcases walkFuel_error fs pf fuel _ _ err h with ⟨p, hp⟩
    rcases hall p with ⟨c, hc⟩
    rw [hp] at hc
    cases hc

theorem build_graph_io_failure_witness :
    (∃ p, exFs1 p = Except.error "file not found") ∧
    (∃ c, exFs2 "/d/.b.ts" = Except.ok c) := by
  constructor
  · exact (build_graph_io_failure exFs1 exPf1).1 3 "nope" "file not found"
      (by decide)
  · exact (build_graph_io_failure exFs2 exPf2).2.1 12 "/d/.a.ts" gCycle
      (by decide) "/d/.b.ts" (by decide)

/-! ## Claim C8: the graph cache returns the stored graph -/

/-- Claim C8: after a first `cached_graph` call returns a graph, a second
call with the same entry (same filesystem, any fuel) takes the cache-hit
branch: it returns the very same graph (hence identical module key sets)
and the same cache, and the stored entry is that graph. -/
theorem cached_graph_hit (fs : String → Except String String)
    (pf : String → Option Program) (fuel fuel2 : Nat)
    (cache c1 : List (String × Graph)) (entry : String) (g1 : Graph)
    (hfirst : cached_graph fs pf fuel cache entry = some (Except.ok g1, c1)) :
    cached_graph fs pf fuel2 c1 entry = some (Except.ok g1, c1) ∧
    lookupStr c1 entry = some g1 := by
  unfold cached_graph at hfirst ⊢
  cases hc : lookupStr cache entry with
  | some g =>
      rw [hc] at hfirst
      have hg : g = g1 ∧ cache = c1 := by
        constructor
        · have := congrArg (fun x => Option.map Prod.fst x) hfirst
          simpa using this
        · have := congrArg (fun x => Option.map Prod.snd x) hfirst
          simpa using this
      rcases hg with ⟨rfl, rfl⟩
      rw [hc]
      exact ⟨rfl, rfl⟩
  | none =>
      rw [hc] at hfirst
      cases hb : buildFuel fs pf fuel entry with
      | none => rw [hb] at hfirst; cases hfirst
      | some r =>
          cases r with
          | error e =>
              rw [hb] at hfirst
              have h2 := congrArg (fun x => Option.map Prod.fst x) hfirst
              simp at h2
          | ok g =>
              rw [hb] at hfirst
              have hg : g = g1 ∧ (entry, g) :: cache = c1 := by
                constructor
                · have := congrArg (fun x => Option.map Prod.fst x) hfirst
                  simpa using this
                · have := congrArg (fun x => Option.map Prod.snd x) hfirst
                  simpa using this
              rcases hg with ⟨rfl, hcc⟩
              rw [← hcc]
              simp [lookupStr]

theorem cached_graph_hit_witness :
    cached_graph exFs3 exPf3 7 [("/e", gOne)] "/e" =
      some (Except.ok gOne, [("/e", gOne)]) ∧
    lookupStr [("/e", gOne)] "/e" = some gOne :=
  cached_graph_hit exFs3 exPf3 2 7 [] [("/e", gOne)] "/e" gOne (by decide)

/-! ## Claim C9: import specifiers are recorded verbatim -/

/-- Claim C9: the `imports` field produced by the extractor is exactly
the sequence of import specifier strings of the program, in source
order; in particular the `.ts`-suffix strip-and-reattach step of the
visitor is the identity on every string. -/
theorem extractor_imports_verbatim :
    (∀ (path : String) (prog : Program),
      (extractInfo path prog).imports = prog.items.filterMap itemImportSrc) ∧
    (∀ s : String, pushImport s = s) := by
  constructor
  · intro path prog
    show (prog.items.foldl visitItem
      { id := path, imports := [], exports := [], used_symbols := [] }).imports =
      prog.items.filterMap itemImportSrc
    rw [foldl_visitItem_imports]
    simp
  · exact pushImport_id

/-! ## Claim C10: kept keys name existing modules and their exports -/

/-- Claim C10: every member of a kept-set returned by `tree_shake` is
`m::s` for a module id `m` present in the graph with `s` among that
module's exports; and when the entry id is absent from the graph the
kept-set is empty. -/
theorem tree_shake_kept_sound (g : Graph) (entry : String) (fuel : Nat)
    (keep : List String) (hres : tree_shakeFuel g entry fuel = some keep) :
    (∀ k ∈ keep, ∃ m s info,
      g.get m = some info ∧ s ∈ info.exports ∧ k = mkKey m s) ∧
    (g.get entry = none → keep = []) := by
  rcases tree_shakeFuel_some hres with ⟨lk, hl, hkeep⟩
  constructor
  · intro k hk
    rw [hkeep] at hk
    rcases mem_finalKeep.mp hk with hlk | ⟨info, hinfo, e, he, rfl⟩
    · have hrun := loopFuel_toRun fuel _ _ _ hl
      rcases shakeRun_sound hrun _ hlk with h0 | ⟨m, s, hr, hhit, rfl⟩
      · cases h0
      · rcases exportHit_iff.mp hhit with ⟨info, hinfo, hs⟩
        exact ⟨m, s, info, hinfo, hs, rfl⟩
    · exact ⟨entry, e, info, hinfo, he, rfl⟩
  · intro hnone
    have hseeds : shakeSeeds g entry = [] := by
      unfold shakeSeeds
      rw [hnone]
    rw [hseeds] at hl
    have hlk : lk = [] := by
      cases fuel with
      | zero =>
          have : some ([] : List String) = some lk := by
            simpa [loopFuel] using hl
          simpa using this.symm
      | succ f =>
          have : some ([] : List String) = some lk := by
            simpa [loopFuel] using hl
          simpa using this.symm
    rw [hkeep, hlk]
    unfold finalKeep
    rw [hnone]

theorem tree_shake_kept_sound_witness :
    (∃ m s info, gEnt.get m = some info ∧ s ∈ info.exports ∧
      "m::u" = mkKey m s) ∧
    (([] : List String) = []) := by
  constructor
  · exact (tree_shake_kept_sound gEnt "m" 1 ["m::u"] (by decide)).1 "m::u"
      (by decide)
  · exact (tree_shake_kept_sound gEnt "zz" 1 [] (by decide)).2 (by decide)
